import Mathlib

/-!
# Verification of `clippings-parser.py`

A shallow embedding of the kindle-clippings parser: the splitter
(`read_clippings`), the grouper (`separate_clippings_by_title`), the title
sanitizer (`clean_title`) and the writer (`save_clippings_to_md_files`),
together with theorems settling the specification's claims about them.

The source reads a text file line by line (Python text-mode iteration, each
yielded line keeping its trailing newline and never being the empty string),
so the splitter is embedded as a function on the list of lines.  The
filesystem touched by the writer is embedded as an association list from
paths to file contents.
-/

set_option autoImplicit false

namespace Clippings

/-- Models Python's `str.isspace` / regex `\s` character test, exact on the
Basic Latin and Latin-1 blocks and on the Unicode space separators. -/
def pyIsSpace (c : Char) : Bool :=
  let n := c.toNat
  (0x9 ≤ n && n ≤ 0xd) || (0x1c ≤ n && n ≤ 0x1f) || n == 0x20 ||
    n == 0x85 || n == 0xa0 || n == 0x1680 || (0x2000 ≤ n && n ≤ 0x200a) ||
    n == 0x2028 || n == 0x2029 || n == 0x202f || n == 0x205f || n == 0x3000

/-- Models Python's Unicode word-character test used by the regex class `\w`,
i.e. `c.isalnum() or c == '_'`.  Exact on the Basic Latin and Latin-1
Supplement blocks (including the superscript digits and vulgar fractions,
which are alphanumeric in Python) and on the all-letter Latin Extended-A/B
blocks; characters beyond those blocks do not occur in this development. -/
def pyIsWordChar (c : Char) : Bool :=
  let n := c.toNat
  c == '_' ||
    (0x30 ≤ n && n ≤ 0x39) || (0x41 ≤ n && n ≤ 0x5a) || (0x61 ≤ n && n ≤ 0x7a) ||
    n == 0xaa || n == 0xb2 || n == 0xb3 || n == 0xb5 || n == 0xb9 || n == 0xba ||
    (0xbc ≤ n && n ≤ 0xbe) || (0xc0 ≤ n && n ≤ 0xd6) || (0xd8 ≤ n && n ≤ 0xf6) ||
    (0xf8 ≤ n && n ≤ 0x24f)

/-- The line-boundary characters recognised by Python's `str.splitlines`. -/
def isLineBreakChar (c : Char) : Bool :=
  let n := c.toNat
  n == 0xa || n == 0xb || n == 0xc || n == 0xd ||
    n == 0x1c || n == 0x1d || n == 0x1e || n == 0x85 || n == 0x2028 || n == 0x2029

/-- Models Python's `str.strip()`: remove leading and trailing whitespace. -/
def pyStrip (s : String) : String :=
  String.mk (((s.data.dropWhile pyIsSpace).reverse.dropWhile pyIsSpace).reverse)

/-- Trimming of trailing whitespace only (`str.rstrip()`), used to state the
spec's literal "after trimming trailing whitespace/newline" reading. -/
def pyRstrip (s : String) : String :=
  String.mk ((s.data.reverse.dropWhile pyIsSpace).reverse)

/-- Models Python's `str.splitlines` on a character list: `acc` holds the
(reversed) characters of the line currently being scanned; a `"\r\n"` pair
counts as a single line boundary. -/
def pySplitlinesAux : List Char → List Char → List String
  | [], acc => if acc.isEmpty then [] else [String.mk acc.reverse]
  | '\r' :: '\n' :: rest, acc => String.mk acc.reverse :: pySplitlinesAux rest []
  | c :: rest, acc =>
    if isLineBreakChar c then String.mk acc.reverse :: pySplitlinesAux rest []
    else pySplitlinesAux rest (c :: acc)

/-- Models Python's `str.splitlines()`. -/
def pySplitlines (s : String) : List String :=
  pySplitlinesAux s.data []

/-- Models `"".join(pieces)`. -/
def strJoin : List String → String
  | [] => ""
  | s :: rest => s ++ strJoin rest

/-! ## Splitter: `read_clippings` -/

/-- The loop of `read_clippings`: `current` is the list of lines accumulated
for the clipping currently being built (`current_clipping` in the source). -/
def read_clippings_aux : List String → List String → List String
  | [], current =>
    -- after the loop: store the last clipping (if any)
    if current.isEmpty then [] else [strJoin current]
  | line :: rest, current =>
    if pyStrip line = "==========" then
      -- separator found: store the current clipping (if not empty) and reset
      if current.isEmpty then read_clippings_aux rest []
      else strJoin current :: read_clippings_aux rest []
    else
      read_clippings_aux rest (current ++ [line])

/-- Embedding of `read_clippings`, taking the lines of the source file as
Python's text-mode iteration yields them (each with its newline kept). -/
def read_clippings (lines : List String) : List String :=
  read_clippings_aux lines []

/-- The separator-bounded segments of the source: the maximal groups of
consecutive non-separator lines, including empty groups between consecutive
separators (and before a leading / after a trailing separator). -/
def splitSegs : List String → List (List String)
  | [] => [[]]
  | line :: rest =>
    if pyStrip line = "==========" then [] :: splitSegs rest
    else
      match splitSegs rest with
      | [] => [[line]]
      | seg :: segs => (line :: seg) :: segs

/-- Rejoining blocks with the canonical separator line between consecutive
blocks, as the spec's round-trip property describes. -/
def interMarker : List String → String
  | [] => ""
  | [b] => b
  | b :: rest => b ++ "==========\n" ++ interMarker rest

/-! ## Dictionaries

Python dictionaries, embedded as association lists in insertion order:
assigning to a present key replaces its value in place, assigning to an
absent key appends the new entry at the end. -/

/-- Lookup (`d[k]`, as an `Option`): the value of the first entry for `k`. -/
def dictLookup {α : Type} : List (String × α) → String → Option α
  | [], _ => none
  | (k', v) :: rest, k => if k' = k then some v else dictLookup rest k

/-- Membership test (`k in d`). -/
def dictHasKey {α : Type} (d : List (String × α)) (k : String) : Bool :=
  (dictLookup d k).isSome

/-- Assignment (`d[k] = v`): replace the entry in place if the key is
present, otherwise append a new entry at the end. -/
def dictSet {α : Type} : List (String × α) → String → α → List (String × α)
  | [], k, v => [(k, v)]
  | (k', v') :: rest, k, v =>
    if k' = k then (k, v) :: rest else (k', v') :: dictSet rest k v

/-! ## Grouper: `separate_clippings_by_title` -/

/-- The title used as grouping key: the first line of the clipping, stripped
(`clipping.splitlines()[0].strip()`); `none` when the clipping has no lines,
in which case the source raises an `IndexError`. -/
def extract_title (clipping : String) : Option String :=
  (pySplitlines clipping).head?.map pyStrip

/-- The loop of `separate_clippings_by_title`; `none` models the
`IndexError` raised on a clipping with no lines. -/
def separate_aux :
    List String → Option String → List (String × List String) →
      Option (List (String × List String))
  | [], _, book_dict => some book_dict
  | clipping :: rest, current_book, book_dict =>
    match (pySplitlines clipping).head? with
    | none => none
    | some first =>
      let title := pyStrip first
      if some title ≠ current_book then
        -- a new (run of a) title: current_book = title; book_dict[title] = []
        let d := dictSet book_dict title []
        match dictLookup d title with
        | none => none
        | some v => separate_aux rest (some title) (dictSet d title (v ++ [clipping]))
      else
        -- same title as the previous clipping: book_dict[current_book].append(...)
        match dictLookup book_dict title with
        | none => none
        | some v =>
          separate_aux rest current_book (dictSet book_dict title (v ++ [clipping]))

/-- Embedding of `separate_clippings_by_title`. -/
def separate_clippings_by_title (clippings : List String) :
    Option (List (String × List String)) :=
  separate_aux clippings none []

/-- Total version of the grouping loop on clippings paired with their
already-extracted titles; coincides with `separate_aux` whenever every
clipping has a title line. -/
def groupAux :
    List (String × String) → Option String → List (String × List String) →
      List (String × List String)
  | [], _, book_dict => book_dict
  | (title, clipping) :: rest, current_book, book_dict =>
    if some title ≠ current_book then
      let d := dictSet book_dict title []
      groupAux rest (some title)
        (dictSet d title ((dictLookup d title).getD [] ++ [clipping]))
    else
      groupAux rest current_book
        (dictSet book_dict title ((dictLookup book_dict title).getD [] ++ [clipping]))

/-- The maximal runs of consecutive equal titles in a title/clipping list:
each run is a title together with the clippings of that contiguous run,
in order. -/
def runsOf : List (String × String) → List (String × List String)
  | [] => []
  | (t, c) :: ps =>
    match runsOf ps with
    | [] => [(t, [c])]
    | (t', cs) :: rs =>
      if t = t' then (t, c :: cs) :: rs else (t, [c]) :: (t', cs) :: rs

/-- The clippings of the last (most recent) run for title `t`, if any. -/
def lastRunFor (t : String) : List (String × List String) → Option (List String)
  | [] => none
  | (k, cs) :: rest =>
    match lastRunFor t rest with
    | some r => some r
    | none => if k = t then some cs else none

/-- Flattening a run list back into the title/clipping list it groups. -/
def flattenRuns : List (String × List String) → List (String × String)
  | [] => []
  | (t, cs) :: rest => cs.map (fun c => (t, c)) ++ flattenRuns rest

/-- Adjacent runs carry distinct titles. -/
def adjDistinct : List (String × List String) → Prop
  | [] => True
  | [_] => True
  | r1 :: r2 :: rs => r1.1 ≠ r2.1 ∧ adjDistinct (r2 :: rs)

/-- The first run's title (if any) differs from the current book. -/
def freshKeys (current_book : Option String) :
    List (String × List String) → Prop
  | [] => True
  | r :: _ => some r.1 ≠ current_book

/-- Processing a run list: each run overwrites the dictionary entry of its
title with exactly the clippings of that run. -/
def processRuns :
    List (String × List String) → List (String × List String) →
      List (String × List String)
  | [], book_dict => book_dict
  | (t, cs) :: rest, book_dict => processRuns rest (dictSet book_dict t cs)

/-! ## Title sanitizer: `clean_title` -/

/-- Models `unicodedata.normalize("NFKD", ·)` on one character, tabulated
for the accented Latin-1 letters this development exercises (base letter
followed by the combining mark) and the identity elsewhere.  Its value is
computed and then discarded by `clean_title`, so it never reaches any
returned stem. -/
def pyNFKDChar (c : Char) : List Char :=
  match c with
  | 'à' => ['a', '̀'] | 'á' => ['a', '́'] | 'â' => ['a', '̂']
  | 'ä' => ['a', '̈'] | 'ã' => ['a', '̃'] | 'ç' => ['c', '̧']
  | 'è' => ['e', '̀'] | 'é' => ['e', '́'] | 'ê' => ['e', '̂']
  | 'ë' => ['e', '̈'] | 'ì' => ['i', '̀'] | 'í' => ['i', '́']
  | 'î' => ['i', '̂'] | 'ï' => ['i', '̈'] | 'ñ' => ['n', '̃']
  | 'ò' => ['o', '̀'] | 'ó' => ['o', '́'] | 'ô' => ['o', '̂']
  | 'ö' => ['o', '̈'] | 'õ' => ['o', '̃'] | 'ù' => ['u', '̀']
  | 'ú' => ['u', '́'] | 'û' => ['u', '̂'] | 'ü' => ['u', '̈']
  | 'ý' => ['y', '́'] | _ => [c]

/-- Models `unicodedata.normalize("NFKD", s)`. -/
def pyNFKD (s : String) : String :=
  String.mk (s.data.map pyNFKDChar).flatten

/-- Models `s.encode("ASCII", "ignore").decode()`: drop every non-ASCII
character. -/
def pyEncodeAsciiIgnore (s : String) : String :=
  String.mk (s.data.filter (fun c => c.toNat < 128))

/-- Models `re.sub(r"[^\w\s-]", "", s)`: delete every character that is not
a word character, whitespace, or a hyphen. -/
def pySubNonWordSpaceHyphen (s : String) : String :=
  String.mk (s.data.filter (fun c => pyIsWordChar c || pyIsSpace c || c == '-'))

/-- Embedding of `clean_title`.  Mirroring the source, the normalized title
and the slash/colon replacements are computed and then shadowed by the final
`re.sub`, which filters the *original* title. -/
def clean_title (title : String) : String :=
  let normalized_title := pyEncodeAsciiIgnore (pyNFKD title)
  let safe_title := (normalized_title.replace "/" "-").replace ":" "_"
  let safe_title := pySubNonWordSpaceHyphen title
  safe_title

/-- The sanitizer as the spec's words describe the returned value: simply
delete from the original title every character matching `[^\w\s-]`. -/
def spec_clean_title (title : String) : String :=
  String.mk (title.data.filter (fun c => pyIsWordChar c || pyIsSpace c || c == '-'))

/-! ## Writer: `save_clippings_to_md_files`

The filesystem is embedded as an association list from paths to file
contents; `os.path.join` becomes `dir ++ "/" ++ filename`. -/

/-- The path of the output file for `title` under `output_dir`. -/
def filePathFor (output_dir title : String) : String :=
  output_dir ++ "/" ++ (clean_title title ++ ".md")

/-- The text appended for one title's clipping list: for each clipping, a
newline, the clipping verbatim, then `"\n---\n"`. -/
def contentFor (clippings : List String) : String :=
  strJoin (clippings.map (fun c => "\n" ++ c ++ "\n---\n"))

/-- One iteration of the writer's loop: pick append mode when the target
file exists (keeping its content as the initial text), write mode otherwise,
then write every clipping of the title. -/
def save_step (output_dir : String) (fs : List (String × String))
    (p : String × List String) : List (String × String) :=
  let filename := clean_title p.1 ++ ".md"
  let filepath := output_dir ++ "/" ++ filename
  let initial :=
    match dictLookup fs filepath with
    | some existing => existing  -- the file exists: mode "a"
    | none => ""                 -- the file is new: mode "w"
  dictSet fs filepath (p.2.foldl (fun acc c => acc ++ "\n" ++ c ++ "\n---\n") initial)

/-- Embedding of `save_clippings_to_md_files`, as a function from the
filesystem before the run to the filesystem after it.  (`os.makedirs` only
creates the directory and moves no file content.) -/
def save_clippings_to_md_files (book_dict : List (String × List String))
    (output_dir : String) (fs : List (String × String)) : List (String × String) :=
  book_dict.foldl (save_step output_dir) fs

/-! ## Dictionary lemmas -/

theorem dictLookup_cons {α : Type} (k' : String) (v' : α) (rest : List (String × α))
    (t : String) :
    dictLookup ((k', v') :: rest) t = if k' = t then some v' else dictLookup rest t := rfl

theorem dictLookup_dictSet {α : Type} (d : List (String × α)) (k : String) (v : α)
    (t : String) :
    dictLookup (dictSet d k v) t = if k = t then some v else dictLookup d t := by
  induction d with
  | nil => simp [dictSet, dictLookup]
  | cons p rest ih =>
    obtain ⟨k', v'⟩ := p
    by_cases hk : k' = k
    · subst hk
      by_cases ht : k' = t <;>
        simp [dictSet, dictLookup_cons, ht, ih]
    · by_cases ht : k' = t
      · have hkt : k ≠ t := fun h => hk (h ▸ ht).symm.symm
        simp [dictSet, hk, dictLookup_cons, ht, hkt, Ne.symm hkt]
      · simp [dictSet, hk, dictLookup_cons, ht, ih]

theorem dictHasKey_dictSet {α : Type} (d : List (String × α)) (k : String) (v : α) :
    dictHasKey (dictSet d k v) k = true := by
  simp [dictHasKey, dictLookup_dictSet]

theorem dictSet_dictSet {α : Type} (d : List (String × α)) (k : String) (v w : α) :
    dictSet (dictSet d k v) k w = dictSet d k w := by
  induction d with
  | nil => simp [dictSet]
  | cons p rest ih =>
    obtain ⟨k', v'⟩ := p
    by_cases hk : k' = k <;> simp [dictSet, hk, ih]

/-! ## String helpers -/

theorem string_empty_append (s : String) : "" ++ s = s := rfl

theorem string_append_empty (s : String) : s ++ "" = s := by
  cases s with
  | mk data => apply String.ext; simp

theorem string_append_assoc (a b c : String) : a ++ b ++ c = a ++ (b ++ c) := by
  apply String.ext; simp

theorem string_ne_empty_iff (s : String) : s ≠ "" ↔ s.data ≠ [] := by
  constructor
  · intro h hdata
    exact h (String.ext hdata)
  · intro h heq
    exact h (by rw [heq])

theorem string_append_ne_empty_left (a b : String) (h : a ≠ "") : a ++ b ≠ "" := by
  rw [string_ne_empty_iff] at h ⊢
  simp [h]

theorem strJoin_cons (s : String) (rest : List String) :
    strJoin (s :: rest) = s ++ strJoin rest := rfl

/-! ## Splitter lemmas -/

theorem splitSegs_ne_nil (lines : List String) : splitSegs lines ≠ [] := by
  cases lines with
  | nil => simp [splitSegs]
  | cons line rest =>
    by_cases h : pyStrip line = "=========="
    · simp [splitSegs, h]
    · simp only [splitSegs, if_neg h]
      cases splitSegs rest <;> simp

/-- Prepending already-accumulated lines to the first segment. -/
def prependFirst (cur : List String) : List (List String) → List (List String)
  | [] => [cur]
  | seg :: segs => (cur ++ seg) :: segs

theorem prependFirst_nil_of_ne {segs : List (List String)} (h : segs ≠ []) :
    prependFirst [] segs = segs := by
  cases segs with
  | nil => exact absurd rfl h
  | cons s ss => simp [prependFirst]

theorem read_clippings_aux_eq (lines : List String) :
    ∀ cur : List String,
      read_clippings_aux lines cur =
        ((prependFirst cur (splitSegs lines)).filter (fun s => !s.isEmpty)).map strJoin := by
  induction lines with
  | nil =>
    intro cur
    by_cases h : cur.isEmpty
    · rw [List.isEmpty_iff] at h
      simp [read_clippings_aux, splitSegs, prependFirst, h]
    · have h' : cur ≠ [] := fun he => h (by simp [he])
      simp [read_clippings_aux, splitSegs, prependFirst,
        List.isEmpty_iff.not.mpr h', h']
  | cons line rest ih =>
    intro cur
    by_cases hsep : pyStrip line = "=========="
    · have hrest := ih []
      rw [prependFirst_nil_of_ne (splitSegs_ne_nil rest)] at hrest
      by_cases h : cur.isEmpty
      · rw [List.isEmpty_iff] at h
        simp [read_clippings_aux, splitSegs, hsep, prependFirst, h, hrest]
      · have h' : cur ≠ [] := fun he => h (by simp [he])
        simp [read_clippings_aux, splitSegs, hsep, prependFirst,
          List.isEmpty_iff.not.mpr h', h', hrest]
    · obtain ⟨seg, segs, heq⟩ : ∃ seg segs, splitSegs rest = seg :: segs := by
        cases hr : splitSegs rest with
        | nil => exact absurd hr (splitSegs_ne_nil rest)
        | cons seg segs => exact ⟨seg, segs, rfl⟩
      have := ih (cur ++ [line])
      rw [heq] at this
      simp only [read_clippings_aux, if_neg hsep, this, splitSegs, heq, prependFirst]
      simp

/-- The splitter emits exactly the non-empty separator-bounded segments,
in order, each joined back into one string. -/
theorem read_clippings_eq (lines : List String) :
    read_clippings lines =
      ((splitSegs lines).filter (fun s => !s.isEmpty)).map strJoin := by
  rw [read_clippings, read_clippings_aux_eq lines [],
    prependFirst_nil_of_ne (splitSegs_ne_nil lines)]

theorem interMarker_cons_append (l s : String) (L : List String) :
    interMarker ((l ++ s) :: L) = l ++ interMarker (s :: L) := by
  cases L with
  | nil => rfl
  | cons b bs => simp [interMarker, string_append_assoc]

/-- Rejoining all segments (empty ones included) with the canonical marker
line reproduces the source, provided every separator line of the source is
the canonical `"==========\n"`. -/
theorem strJoin_eq_interMarker (lines : List String)
    (h1 : ∀ l ∈ lines, pyStrip l = "==========" → l = "==========\n") :
    strJoin lines = interMarker ((splitSegs lines).map strJoin) := by
  induction lines with
  | nil => rfl
  | cons line rest ih =>
    have hrest : ∀ l ∈ rest, pyStrip l = "==========" → l = "==========\n" :=
      fun l hl => h1 l (List.mem_cons_of_mem line hl)
    by_cases hsep : pyStrip line = "=========="
    · have hline : line = "==========\n" := h1 line (List.mem_cons_self line rest) hsep
      obtain ⟨seg, segs, heq⟩ : ∃ seg segs, splitSegs rest = seg :: segs := by
        cases hr : splitSegs rest with
        | nil => exact absurd hr (splitSegs_ne_nil rest)
        | cons seg segs => exact ⟨seg, segs, rfl⟩
      rw [strJoin_cons, splitSegs, if_pos hsep, List.map_cons, heq, hline, ih hrest, heq]
      simp [interMarker, strJoin, string_empty_append]
    · obtain ⟨seg, segs, heq⟩ : ∃ seg segs, splitSegs rest = seg :: segs := by
        cases hr : splitSegs rest with
        | nil => exact absurd hr (splitSegs_ne_nil rest)
        | cons seg segs => exact ⟨seg, segs, rfl⟩
      rw [strJoin_cons, splitSegs, if_neg hsep, heq, List.map_cons, strJoin_cons,
        interMarker_cons_append, ← List.map_cons, ← heq, ← ih hrest]

/-! ## Grouper lemmas -/

theorem runsOf_ne_nil (p : String × String) (ps : List (String × String)) :
    runsOf (p :: ps) ≠ [] := by
  obtain ⟨t, c⟩ := p
  simp only [runsOf]
  cases runsOf ps with
  | nil => simp
  | cons r rs =>
    obtain ⟨t', cs⟩ := r
    by_cases h : t = t' <;> simp [h]

theorem flattenRuns_runsOf (ps : List (String × String)) :
    flattenRuns (runsOf ps) = ps := by
  induction ps with
  | nil => rfl
  | cons p ps ih =>
    obtain ⟨t, c⟩ := p
    cases hr : runsOf ps with
    | nil =>
      have hnil : ps = [] := by
        cases ps with
        | nil => rfl
        | cons q qs => exact absurd hr (runsOf_ne_nil q qs)
      subst hnil
      simp [runsOf, flattenRuns]
    | cons r rs =>
      obtain ⟨t', cs⟩ := r
      rw [hr] at ih
      simp only [flattenRuns] at ih
      by_cases h : t = t'
      · subst h
        simp only [runsOf, hr, if_pos rfl, flattenRuns, List.map_cons, List.cons_append]
        rw [ih]
      · simp only [runsOf, hr, if_neg h, flattenRuns, List.map_cons, List.map_nil,
          List.nil_append, List.cons_append]
        rw [ih]

theorem adjDistinct_runsOf (ps : List (String × String)) : adjDistinct (runsOf ps) := by
  induction ps with
  | nil => trivial
  | cons p ps ih =>
    obtain ⟨t, c⟩ := p
    cases hr : runsOf ps with
    | nil =>
      simp only [runsOf, hr]
      trivial
    | cons r rs =>
      obtain ⟨t', cs⟩ := r
      rw [hr] at ih
      by_cases h : t = t'
      · subst h
        simp only [runsOf, hr, if_pos rfl]
        cases rs with
        | nil => trivial
        | cons r2 rs2 => exact ⟨ih.1, ih.2⟩
      · simp only [runsOf, hr, if_neg h]
        exact ⟨h, ih⟩

theorem runsOf_snd_ne_nil (ps : List (String × String)) :
    ∀ r ∈ runsOf ps, r.2 ≠ [] := by
  induction ps with
  | nil => simp [runsOf]
  | cons p ps ih =>
    obtain ⟨t, c⟩ := p
    cases hr : runsOf ps with
    | nil => simp [runsOf, hr]
    | cons r rs =>
      obtain ⟨t', cs⟩ := r
      rw [hr] at ih
      by_cases h : t = t'
      · subst h
        simp only [runsOf, hr, if_pos rfl]
        intro r2 hr2
        rcases List.mem_cons.mp hr2 with h1 | h2
        · subst h1; simp
        · exact ih r2 (List.mem_cons_of_mem _ h2)
      · simp only [runsOf, hr, if_neg h]
        intro r2 hr2
        rcases List.mem_cons.mp hr2 with h1 | h2
        · subst h1; simp
        · exact ih r2 h2

theorem groupAux_same_title (t : String) (cs' : List String) :
    ∀ (rest : List (String × String)) (d : List (String × List String))
      (acc : List String),
      groupAux (cs'.map (fun c => (t, c)) ++ rest) (some t) (dictSet d t acc) =
        groupAux rest (some t) (dictSet d t (acc ++ cs')) := by
  induction cs' with
  | nil => intro rest d acc; simp
  | cons c cs'' ih =>
    intro rest d acc
    simp only [List.map_cons, List.cons_append, List.append_eq, groupAux]
    rw [if_neg (by simp), dictLookup_dictSet, if_pos rfl]
    simp only [Option.getD_some]
    rw [dictSet_dictSet, ih rest d (acc ++ [c])]
    simp

theorem groupAux_flatten :
    ∀ (RS : List (String × List String)) (cb : Option String)
      (d : List (String × List String)),
      adjDistinct RS → (∀ r ∈ RS, r.2 ≠ []) → freshKeys cb RS →
      groupAux (flattenRuns RS) cb d = processRuns RS d := by
  intro RS
  induction RS with
  | nil => intro cb d _ _ _; rfl
  | cons r RS' ih =>
    obtain ⟨t, cs⟩ := r
    intro cb d hadj hne hfresh
    obtain ⟨c1, cs', rfl⟩ : ∃ c1 cs', cs = c1 :: cs' := by
      cases cs with
      | nil => exact absurd rfl (hne (t, []) (List.mem_cons_self _ _))
      | cons c1 cs' => exact ⟨c1, cs', rfl⟩
    have hfresh1 : some t ≠ cb := hfresh
    simp only [flattenRuns, List.map_cons, List.cons_append, List.append_eq, groupAux]
    rw [if_pos hfresh1, dictLookup_dictSet, if_pos rfl]
    simp only [Option.getD_some, List.nil_append]
    rw [dictSet_dictSet, groupAux_same_title t cs' (flattenRuns RS') d [c1]]
    have hadj' : adjDistinct RS' := by
      cases RS' with
      | nil => trivial
      | cons r2 rs2 => exact hadj.2
    have hne' : ∀ r ∈ RS', r.2 ≠ [] :=
      fun r hr => hne r (List.mem_cons_of_mem _ hr)
    have hfresh' : freshKeys (some t) RS' := by
      cases RS' with
      | nil => trivial
      | cons r2 rs2 =>
        have : t ≠ r2.1 := hadj.1
        simp only [freshKeys]
        exact fun h => this (Option.some.inj h).symm
    simp only [List.singleton_append]
    rw [ih (some t) (dictSet d t (c1 :: cs')) hadj' hne' hfresh']
    rfl

theorem dictLookup_processRuns :
    ∀ (RS : List (String × List String)) (d : List (String × List String))
      (t : String),
      dictLookup (processRuns RS d) t =
        match lastRunFor t RS with
        | some cs => some cs
        | none => dictLookup d t := by
  intro RS
  induction RS with
  | nil => intro d t; rfl
  | cons r RS' ih =>
    obtain ⟨k, cs⟩ := r
    intro d t
    simp only [processRuns, lastRunFor]
    rw [ih]
    cases h : lastRunFor t RS' with
    | some cs' => simp
    | none =>
      rw [dictLookup_dictSet]
      by_cases hk : k = t <;> simp [hk]

/-! ## Relating `separate_aux` to the total grouping loop -/

theorem separate_aux_eq_groupAux {blocks ts : List String}
    (hf : List.Forall₂ (fun b t => extract_title b = some t) blocks ts) :
    ∀ (cb : Option String) (d : List (String × List String)),
      (∀ t, cb = some t → dictHasKey d t = true) →
      separate_aux blocks cb d = some (groupAux (ts.zip blocks) cb d) := by
  induction hf with
  | nil => intro cb d _; rfl
  | @cons b t blocks' ts' hbt hf ih =>
    intro cb d hinv
    obtain ⟨f, hfirst, hstrip⟩ := Option.map_eq_some'.mp hbt
    simp only [List.zip_cons_cons, separate_aux, groupAux, hfirst, hstrip]
    by_cases hcb : some t ≠ cb
    · rw [if_pos hcb, if_pos hcb, dictLookup_dictSet, if_pos rfl]
      simp only [Option.getD_some, List.nil_append]
      exact ih (some t) _ (fun t' h => by
        rw [← Option.some.inj h]
        exact dictHasKey_dictSet _ _ _)
    · rw [if_neg hcb, if_neg hcb]
      have hcb' : cb = some t := by
        by_contra hne
        exact hcb (fun h => hne h.symm)
      obtain ⟨v, hv⟩ := Option.isSome_iff_exists.mp (hinv t hcb')
      rw [hv]
      simp only [Option.getD_some]
      exact ih cb _ (fun t' h => by
        have : t' = t := (Option.some.inj (hcb'.symm.trans h)).symm
        rw [this]
        exact dictHasKey_dictSet _ _ _)

/-- Every dictionary the grouper can return satisfies the run
characterization: the value at any title is exactly the clippings of the
most recent contiguous run of that title. -/
theorem separate_lookup {blocks ts : List String}
    (hf : List.Forall₂ (fun b t => extract_title b = some t) blocks ts) :
    separate_clippings_by_title blocks =
        some (groupAux (ts.zip blocks) none []) ∧
      ∀ t, dictLookup (groupAux (ts.zip blocks) none []) t =
        lastRunFor t (runsOf (ts.zip blocks)) := by
  constructor
  · exact separate_aux_eq_groupAux hf none [] (fun t h => Option.noConfusion h)
  · intro t
    have hfresh : freshKeys none (runsOf (ts.zip blocks)) := by
      cases runsOf (ts.zip blocks) with
      | nil => trivial
      | cons r rs => simp [freshKeys]
    rw [← flattenRuns_runsOf (ts.zip blocks),
      groupAux_flatten _ none [] (adjDistinct_runsOf _) (runsOf_snd_ne_nil _) hfresh,
      dictLookup_processRuns, flattenRuns_runsOf]
    cases lastRunFor t (runsOf (ts.zip blocks)) <;> rfl

/-! ## Safety of title extraction on splitter output -/

theorem pySplitlinesAux_ne_nil (cs : List Char) :
    ∀ acc : List Char, acc ≠ [] ∨ cs ≠ [] → pySplitlinesAux cs acc ≠ [] := by
  induction cs with
  | nil =>
    intro acc h
    rcases h with h | h
    · simp [pySplitlinesAux, List.isEmpty_iff, h]
    · exact absurd rfl h
  | cons c rest ih =>
    intro acc _
    by_cases hc : c = '\r'
    · subst hc
      cases rest with
      | nil => simp [pySplitlinesAux, isLineBreakChar]
      | cons c2 rest2 =>
        by_cases h2 : c2 = '\n'
        · subst h2; simp [pySplitlinesAux]
        · simp [pySplitlinesAux, h2, isLineBreakChar]
    · by_cases hl : isLineBreakChar c
      · simp [pySplitlinesAux, hc, hl]
      · have hunfold : pySplitlinesAux (c :: rest) acc =
            pySplitlinesAux rest (c :: acc) := by
          simp [pySplitlinesAux, hc, hl]
        rw [hunfold]
        exact ih (c :: acc) (Or.inl (by simp))

theorem pySplitlines_ne_nil (s : String) (h : s ≠ "") : pySplitlines s ≠ [] := by
  rw [string_ne_empty_iff] at h
  exact pySplitlinesAux_ne_nil s.data [] (Or.inr h)

theorem extract_title_isSome (b : String) (h : b ≠ "") : (extract_title b).isSome := by
  rw [extract_title]
  cases hs : pySplitlines b with
  | nil => exact absurd hs (pySplitlines_ne_nil b h)
  | cons l ls => simp

theorem splitSegs_mem (lines : List String) :
    ∀ seg ∈ splitSegs lines, ∀ l ∈ seg, l ∈ lines := by
  induction lines with
  | nil => simp [splitSegs]
  | cons line rest ih =>
    by_cases hsep : pyStrip line = "=========="
    · simp only [splitSegs, if_pos hsep]
      intro seg hseg l hl
      rcases List.mem_cons.mp hseg with h1 | h2
      · subst h1; exact absurd hl (List.not_mem_nil l)
      · exact List.mem_cons_of_mem _ (ih seg h2 l hl)
    · cases hr : splitSegs rest with
      | nil => exact absurd hr (splitSegs_ne_nil rest)
      | cons seg0 segs0 =>
        simp only [splitSegs, if_neg hsep, hr]
        intro seg hseg l hl
        rcases List.mem_cons.mp hseg with h1 | h2
        · subst h1
          rcases List.mem_cons.mp hl with h3 | h4
          · subst h3; exact List.mem_cons_self _ _
          · refine List.mem_cons_of_mem _ (ih seg0 ?_ l h4)
            rw [hr]; exact List.mem_cons_self _ _
        · refine List.mem_cons_of_mem _ (ih seg ?_ l hl)
          rw [hr]; exact List.mem_cons_of_mem _ h2

theorem read_clippings_block_ne_empty (lines : List String)
    (hlines : ∀ l ∈ lines, l ≠ "") :
    ∀ b ∈ read_clippings lines, b ≠ "" := by
  rw [read_clippings_eq]
  intro b hb
  obtain ⟨seg, hseg, rfl⟩ := List.mem_map.mp hb
  obtain ⟨hmem, hne⟩ := List.mem_filter.mp hseg
  obtain ⟨l0, seg', rfl⟩ : ∃ l0 seg', seg = l0 :: seg' := by
    cases seg with
    | nil => simp at hne
    | cons l0 seg' => exact ⟨l0, seg', rfl⟩
  rw [strJoin_cons]
  exact string_append_ne_empty_left _ _
    (hlines l0 (splitSegs_mem lines _ hmem l0 (List.mem_cons_self _ _)))

theorem forall2_extract (blocks : List String)
    (h : ∀ b ∈ blocks, (extract_title b).isSome) :
    List.Forall₂ (fun b t => extract_title b = some t) blocks
      (blocks.map (fun b => (extract_title b).getD "")) := by
  induction blocks with
  | nil => exact List.Forall₂.nil
  | cons b bs ih =>
    obtain ⟨t, ht⟩ := Option.isSome_iff_exists.mp (h b (List.mem_cons_self b bs))
    simp only [List.map_cons]
    exact List.Forall₂.cons (by simp [ht])
      (ih (fun b' hb' => h b' (List.mem_cons_of_mem _ hb')))

/-! ## Writer lemmas -/

theorem foldl_write (cs : List String) :
    ∀ init : String,
      cs.foldl (fun acc c => acc ++ "\n" ++ c ++ "\n---\n") init =
        init ++ contentFor cs := by
  induction cs with
  | nil => intro init; simp [contentFor, strJoin, string_append_empty]
  | cons c cs' ih =>
    intro init
    simp only [List.foldl_cons]
    rw [ih]
    simp [contentFor, strJoin, string_append_assoc]

theorem dictLookup_save_step (dir : String) (fs : List (String × String))
    (p : String × List String) (q : String) :
    dictLookup (save_step dir fs p) q =
      if filePathFor dir p.1 = q then
        some ((dictLookup fs (filePathFor dir p.1)).getD "" ++ contentFor p.2)
      else dictLookup fs q := by
  simp only [save_step, filePathFor]
  cases h : dictLookup fs (dir ++ "/" ++ (clean_title p.1 ++ ".md")) <;>
    rw [foldl_write, dictLookup_dictSet] <;>
    simp [string_empty_append]

theorem dictLookup_save_of_fresh (d : List (String × List String)) (dir : String) :
    ∀ (fs : List (String × String)) (q : String),
      (∀ p ∈ d, filePathFor dir p.1 ≠ q) →
      dictLookup (save_clippings_to_md_files d dir fs) q = dictLookup fs q := by
  induction d with
  | nil => intro fs q _; rfl
  | cons p d' ih =>
    intro fs q h
    simp only [save_clippings_to_md_files, List.foldl_cons]
    rw [show List.foldl (save_step dir) (save_step dir fs p) d' =
        save_clippings_to_md_files d' dir (save_step dir fs p) from rfl,
      ih (save_step dir fs p) q (fun p' hp' => h p' (List.mem_cons_of_mem _ hp')),
      dictLookup_save_step, if_neg (h p (List.mem_cons_self _ _))]

/-- What one run of the writer leaves at a title's path: whatever was there
before, extended with this title's clippings formatted in order. -/
theorem dictLookup_save (d : List (String × List String)) (dir : String) :
    ∀ (fs : List (String × String)) (title : String) (clippings : List String),
      (d.map (fun p => filePathFor dir p.1)).Nodup →
      (title, clippings) ∈ d →
      dictLookup (save_clippings_to_md_files d dir fs) (filePathFor dir title) =
        some ((dictLookup fs (filePathFor dir title)).getD "" ++ contentFor clippings) := by
  induction d with
  | nil => intro fs t cs _ h; exact absurd h (List.not_mem_nil _)
  | cons p d' ih =>
    intro fs title clippings hnodup hmem
    rw [List.map_cons, List.nodup_cons] at hnodup
    obtain ⟨hhead, htail⟩ := hnodup
    simp only [save_clippings_to_md_files, List.foldl_cons]
    rw [show List.foldl (save_step dir) (save_step dir fs p) d' =
        save_clippings_to_md_files d' dir (save_step dir fs p) from rfl]
    rcases List.mem_cons.mp hmem with h1 | h2
    · have hp1 : p.1 = title := by rw [← h1]
      have hp2 : p.2 = clippings := by rw [← h1]
      rw [dictLookup_save_of_fresh d' dir _ _
          (fun p' hp' heq => hhead (List.mem_map.mpr ⟨p', hp', by rw [heq, hp1]⟩)),
        dictLookup_save_step, hp1, hp2, if_pos rfl]
    · have hne : filePathFor dir p.1 ≠ filePathFor dir title := fun heq =>
        hhead (by
          rw [heq]
          exact List.mem_map.mpr ⟨(title, clippings), h2, rfl⟩)
      rw [ih (save_step dir fs p) title clippings htail h2, dictLookup_save_step,
        if_neg hne]

/-! ## Key-set lemmas -/

theorem lastRunFor_isSome_iff (t : String) :
    ∀ RS : List (String × List String),
      (lastRunFor t RS).isSome ↔ t ∈ RS.map Prod.fst := by
  intro RS
  induction RS with
  | nil => simp [lastRunFor]
  | cons r RS' ih =>
    obtain ⟨k, cs⟩ := r
    simp only [lastRunFor, List.map_cons, List.mem_cons]
    cases h : lastRunFor t RS' with
    | some r' =>
      rw [h] at ih
      simp only [Option.isSome_some, true_iff] at ih
      simpa using Or.inr ih
    | none =>
      rw [h] at ih
      simp only [Option.isSome_none, Bool.false_eq_true, false_iff] at ih
      by_cases hk : k = t
      · simp [hk]
      · simp [Ne.symm hk, ih, hk]

theorem mem_map_fst_runsOf (t : String) :
    ∀ ps : List (String × String),
      t ∈ (runsOf ps).map Prod.fst ↔ t ∈ ps.map Prod.fst := by
  intro ps
  induction ps with
  | nil => simp [runsOf]
  | cons p ps ih =>
    obtain ⟨t0, c⟩ := p
    cases hr : runsOf ps with
    | nil =>
      have hnil : ps = [] := by
        cases ps with
        | nil => rfl
        | cons q qs => exact absurd hr (runsOf_ne_nil q qs)
      subst hnil
      simp [runsOf]
    | cons r rs =>
      obtain ⟨t', cs⟩ := r
      rw [hr] at ih
      simp only [List.map_cons, List.mem_cons] at ih
      by_cases h : t0 = t'
      · subst h
        simp only [runsOf, hr, if_pos rfl, eq_self_iff_true, if_true, List.map_cons,
          List.mem_cons]
        constructor
        · intro x
          exact Or.inr (ih.mp x)
        · rintro (h1 | h2)
          · exact Or.inl h1
          · exact ih.mpr h2
      · simp only [runsOf, hr, if_neg h, List.map_cons, List.mem_cons]
        exact or_congr Iff.rfl ih

/-! ## Claims -/

/-- C1 counterexample: on the spec's own example `"Café: Life/Times"`, the
accented letter is *not* removed.  Python's `\w` (Unicode by default)
matches `'é'`, so `clean_title` keeps it: the result is `"Café LifeTimes"`,
with `'é'` present in the output, not a `"Caf LifeTimes"`-style stem. -/
theorem clean_title_cafe_keeps_accent :
    clean_title "Café: Life/Times" = "Café LifeTimes" ∧
      'é' ∈ (clean_title "Café: Life/Times").data := by
  constructor <;> decide

/-- C1 (amended): `clean_title` removes from the original title every
character that is not a word character, whitespace, or hyphen — but under
Python's Unicode `\w`, accented letters are word characters and are kept
unchanged (neither removed nor transliterated); `/` and `:` are deleted, so
`"Café: Life/Times"` yields `"Café LifeTimes"`. -/
theorem clean_title_filters_nonword :
    (∀ title : String,
        (clean_title title).data =
          title.data.filter (fun c => pyIsWordChar c || pyIsSpace c || c == '-')) ∧
      clean_title "Café: Life/Times" = "Café LifeTimes" := by
  constructor
  · intro title
    rfl
  · decide

/-- C6: `clean_title` equals the plain filter that deletes every character
matching `[^\w\s-]` from the *original* title: the NFKD normalization, the
ASCII re-encoding and the slash/colon replacements are computed but
discarded, and have no effect on the returned stem. -/
theorem clean_title_eq_spec_clean_title :
    ∀ title : String, clean_title title = spec_clean_title title :=
  fun _ => rfl

/-- C3: `read_clippings` returns, in order, exactly the non-empty
separator-bounded segments of the source: empty segments (consecutive
separators, leading or trailing separators) are dropped and never emitted,
and a final segment without a trailing separator is emitted as the last
block. -/
theorem read_clippings_blocks :
    ∀ lines : List String,
      read_clippings lines =
        ((splitSegs lines).filter (fun s => !s.isEmpty)).map strJoin :=
  read_clippings_eq

/-- C4 counterexample: a line with *leading* whitespace before the marker is
treated as a separator by `read_clippings` (the source strips both ends),
although its trailing-trimmed form is not the marker — so "separator iff the
line trimmed of trailing whitespace equals `==========`" is false. -/
theorem separator_trailing_trim_counterexample :
    read_clippings [" ==========\n"] = [] ∧
      pyRstrip " ==========\n" ≠ "==========" := by
  constructor <;> decide

/-- C4 (amended): a line is treated as a separator if and only if the line
trimmed of *leading and trailing* whitespace (`str.strip()`) is exactly
`==========`: a separator line contributes nothing and closes the current
block, and every other line is accumulated into the current block (it
becomes a prefix of the next emitted block). -/
theorem separator_iff_strip :
    ∀ (l : String) (lines : List String),
      (pyStrip l = "==========" → read_clippings (l :: lines) = read_clippings lines) ∧
        (pyStrip l ≠ "==========" →
          ∃ r bs, read_clippings (l :: lines) = (l ++ r) :: bs) := by
  intro l lines
  constructor
  · intro h
    simp [read_clippings, read_clippings_aux, h]
  · intro h
    have hstep : read_clippings (l :: lines) = read_clippings_aux lines [l] := by
      simp [read_clippings, read_clippings_aux, h]
    rw [hstep, read_clippings_aux_eq lines [l]]
    obtain ⟨seg, segs, heq⟩ : ∃ seg segs, splitSegs lines = seg :: segs := by
      cases hr : splitSegs lines with
      | nil => exact absurd hr (splitSegs_ne_nil lines)
      | cons seg segs => exact ⟨seg, segs, rfl⟩
    rw [heq]
    simp only [prependFirst, List.singleton_append]
    refine ⟨strJoin seg, (segs.filter (fun s => !s.isEmpty)).map strJoin, ?_⟩
    simp [strJoin_cons]

/-- Witness for the amended C4 at concrete inputs. -/
theorem separator_iff_strip_witness :
    read_clippings ["==========\n", "a\n"] = read_clippings ["a\n"] ∧
      ∃ r bs, read_clippings ["x\n", "a\n"] = ("x\n" ++ r) :: bs :=
  ⟨(separator_iff_strip "==========\n" ["a\n"]).1 (by decide),
   (separator_iff_strip "x\n" ["a\n"]).2 (by decide)⟩

/-- C5 counterexample: a separator line carrying extra whitespace breaks the
round trip even though no empty segment is removed — rejoining the blocks
with the canonical marker line normalizes `"==========  \n"` away, so the
result differs from the original source. -/
theorem roundtrip_counterexample :
    (∀ seg ∈ splitSegs ["a\n", "==========  \n", "b\n"], seg ≠ []) ∧
      interMarker (read_clippings ["a\n", "==========  \n", "b\n"]) ≠
        strJoin ["a\n", "==========  \n", "b\n"] := by
  constructor <;> decide

/-- C5 (amended): when every separator line of the source is exactly the
canonical `"==========\n"`, rejoining *all* segments with the marker line
reproduces the source (the removed blocks being exactly the empty segments),
and when additionally no segment is empty, rejoining the blocks returned by
`read_clippings` reproduces the source exactly; within each block the
non-separator lines are preserved verbatim in order. -/
theorem roundtrip_canonical_separators :
    ∀ lines : List String,
      (∀ l ∈ lines, pyStrip l = "==========" → l = "==========\n") →
      strJoin lines = interMarker ((splitSegs lines).map strJoin) ∧
        ((∀ seg ∈ splitSegs lines, seg ≠ []) →
          interMarker (read_clippings lines) = strJoin lines) := by
  intro lines h1
  refine ⟨strJoin_eq_interMarker lines h1, ?_⟩
  intro hne
  rw [read_clippings_eq,
    List.filter_eq_self.mpr (fun s hs => by
      simpa [List.isEmpty_iff] using hne s hs),
    ← strJoin_eq_interMarker lines h1]

/-- Witness for the amended C5 at a concrete source. -/
theorem roundtrip_canonical_separators_witness :
    strJoin ["a\n", "==========\n", "b\n"] =
        interMarker ((splitSegs ["a\n", "==========\n", "b\n"]).map strJoin) ∧
      interMarker (read_clippings ["a\n", "==========\n", "b\n"]) =
        strJoin ["a\n", "==========\n", "b\n"] := by
  obtain ⟨h1, h2⟩ :=
    roundtrip_canonical_separators ["a\n", "==========\n", "b\n"] (by decide)
  exact ⟨h1, h2 (by decide)⟩

/-- C2: with trimmed first-line titles `[A, A, B, A]` and `A ≠ B`, the
grouper's result maps `A` to the one-element list holding only the last `A`
block — and in general the value of any title is exactly the clippings of
its most recent contiguous run (`lastRunFor` over `runsOf`), earlier runs
being overwritten. -/
theorem separate_overwrites_repeated_title :
    (∀ (b1 b2 b3 b4 A B : String) (d : List (String × List String)),
        extract_title b1 = some A → extract_title b2 = some A →
        extract_title b3 = some B → extract_title b4 = some A → A ≠ B →
        separate_clippings_by_title [b1, b2, b3, b4] = some d →
        dictLookup d A = some [b4]) ∧
      (∀ (blocks ts : List String) (d : List (String × List String)),
        List.Forall₂ (fun b t => extract_title b = some t) blocks ts →
        separate_clippings_by_title blocks = some d →
        ∀ t, dictLookup d t = lastRunFor t (runsOf (ts.zip blocks))) := by
  have hgen : ∀ (blocks ts : List String) (d : List (String × List String)),
      List.Forall₂ (fun b t => extract_title b = some t) blocks ts →
      separate_clippings_by_title blocks = some d →
      ∀ t, dictLookup d t = lastRunFor t (runsOf (ts.zip blocks)) := by
    intro blocks ts d hf hsep t
    obtain ⟨heq, hchar⟩ := separate_lookup hf
    rw [Option.some.inj (hsep.symm.trans heq)]
    exact hchar t
  refine ⟨?_, hgen⟩
  intro b1 b2 b3 b4 A B d h1 h2 h3 h4 hAB hsep
  have hf : List.Forall₂ (fun b t => extract_title b = some t)
      [b1, b2, b3, b4] [A, A, B, A] :=
    List.Forall₂.cons h1 (List.Forall₂.cons h2 (List.Forall₂.cons h3
      (List.Forall₂.cons h4 List.Forall₂.nil)))
  rw [hgen [b1, b2, b3, b4] [A, A, B, A] d hf hsep A]
  simp only [List.zip_cons_cons, List.zip_nil_right, runsOf, if_neg hAB,
    if_neg (Ne.symm hAB), if_pos rfl, eq_self_iff_true, if_true, lastRunFor]

/-- Witness for C2 at concrete blocks. -/
theorem separate_overwrites_repeated_title_witness :
    dictLookup [("A", ["A\n4"]), ("B", ["B\n3"])] "A" = some ["A\n4"] :=
  separate_overwrites_repeated_title.1 "A\n1" "A\n2" "B\n3" "A\n4" "A" "B"
    [("A", ["A\n4"]), ("B", ["B\n3"])] (by decide) (by decide) (by decide)
    (by decide) (by decide) (by decide)

/-- C10: the key set of the grouper's result is exactly the set of distinct
trimmed first-line titles of the input blocks — a title whose earlier run
was overwritten still remains present as a key. -/
theorem separate_keys_are_titles :
    ∀ (blocks ts : List String) (d : List (String × List String)),
      List.Forall₂ (fun b t => extract_title b = some t) blocks ts →
      separate_clippings_by_title blocks = some d →
      ∀ t, (dictLookup d t).isSome ↔ t ∈ ts := by
  intro blocks ts d hf hsep t
  obtain ⟨heq, hchar⟩ := separate_lookup hf
  rw [Option.some.inj (hsep.symm.trans heq), hchar t, lastRunFor_isSome_iff,
    mem_map_fst_runsOf, List.map_fst_zip ts blocks (le_of_eq hf.length_eq.symm)]

/-- Witness for C10 at concrete blocks. -/
theorem separate_keys_are_titles_witness :
    (dictLookup [("A", ["A\n4"]), ("B", ["B\n3"])] "B").isSome ↔
      "B" ∈ ["A", "A", "B", "A"] :=
  separate_keys_are_titles ["A\n1", "A\n2", "B\n3", "A\n4"] ["A", "A", "B", "A"]
    [("A", ["A\n4"]), ("B", ["B\n3"])]
    (List.Forall₂.cons (by decide) (List.Forall₂.cons (by decide)
      (List.Forall₂.cons (by decide) (List.Forall₂.cons (by decide)
        List.Forall₂.nil))))
    (by decide) "B"

/-- C9: on a source whose lines are genuine text-file lines (never the empty
string, as Python's line iteration guarantees), every block returned by
`read_clippings` is a non-empty string with at least one line, so the
grouper's title extraction never hits its index fault and the grouper
returns a dictionary. -/
theorem splitter_output_safe_for_grouper :
    ∀ lines : List String, (∀ l ∈ lines, l ≠ "") →
      (∀ b ∈ read_clippings lines, b ≠ "" ∧ pySplitlines b ≠ []) ∧
        (separate_clippings_by_title (read_clippings lines)).isSome := by
  intro lines hlines
  have hne : ∀ b ∈ read_clippings lines, b ≠ "" :=
    read_clippings_block_ne_empty lines hlines
  constructor
  · intro b hb
    exact ⟨hne b hb, pySplitlines_ne_nil b (hne b hb)⟩
  · have hex : ∀ b ∈ read_clippings lines, (extract_title b).isSome :=
      fun b hb => extract_title_isSome b (hne b hb)
    rw [(separate_lookup (forall2_extract _ hex)).1]
    simp

/-- Witness for C9 at a concrete source. -/
theorem splitter_output_safe_for_grouper_witness :
    (∀ b ∈ read_clippings ["Book\n", "quote\n", "==========\n"],
        b ≠ "" ∧ pySplitlines b ≠ []) ∧
      (separate_clippings_by_title
        (read_clippings ["Book\n", "quote\n", "==========\n"])).isSome :=
  splitter_output_safe_for_grouper ["Book\n", "quote\n", "==========\n"] (by decide)

/-- C7: after a run of the writer, the file at `clean_title(title) ++ ".md"`
under the output directory holds, after whatever content was already there,
for each block of the title's list in order: a newline, the block verbatim,
then the line `---` followed by a newline.  (Distinct sanitized paths keep
the per-title contents separate.) -/
theorem writer_file_content :
    ∀ (book_dict : List (String × List String)) (output_dir : String)
      (fs : List (String × String)) (title : String) (clippings : List String),
      (book_dict.map (fun p => filePathFor output_dir p.1)).Nodup →
      (title, clippings) ∈ book_dict →
      dictLookup (save_clippings_to_md_files book_dict output_dir fs)
          (filePathFor output_dir title) =
        some ((dictLookup fs (filePathFor output_dir title)).getD "" ++
          strJoin (clippings.map (fun c => "\n" ++ c ++ "\n---\n"))) :=
  fun d dir fs title clippings hnodup hmem =>
    dictLookup_save d dir fs title clippings hnodup hmem

/-- Witness for C7 at a concrete mapping on an empty filesystem. -/
theorem writer_file_content_witness :
    dictLookup (save_clippings_to_md_files [("T", ["c1", "c2"])] "out" [])
        (filePathFor "out" "T") =
      some ((dictLookup ([] : List (String × String)) (filePathFor "out" "T")).getD ""
        ++ strJoin (["c1", "c2"].map (fun c => "\n" ++ c ++ "\n---\n"))) :=
  writer_file_content [("T", ["c1", "c2"])] "out" [] "T" ["c1", "c2"]
    (by decide) (by decide)

/-- C8: running the writer twice with the same mapping and output directory
appends: the file holds the first run's content unchanged as a prefix,
followed by the same content again, so each clipping appears twice. -/
theorem writer_append_on_second_run :
    ∀ (book_dict : List (String × List String)) (output_dir : String)
      (fs : List (String × String)) (title : String) (clippings : List String),
      (book_dict.map (fun p => filePathFor output_dir p.1)).Nodup →
      (title, clippings) ∈ book_dict →
      dictLookup fs (filePathFor output_dir title) = none →
      dictLookup
          (save_clippings_to_md_files book_dict output_dir
            (save_clippings_to_md_files book_dict output_dir fs))
          (filePathFor output_dir title) =
        some (contentFor clippings ++ contentFor clippings) := by
  intro d dir fs title clippings hnodup hmem hnone
  have h1 := dictLookup_save d dir fs title clippings hnodup hmem
  rw [hnone, Option.getD_none, string_empty_append] at h1
  have h2 := dictLookup_save d dir (save_clippings_to_md_files d dir fs)
    title clippings hnodup hmem
  rw [h1, Option.getD_some] at h2
  exact h2

/-- Witness for C8 at a concrete mapping on an empty filesystem. -/
theorem writer_append_on_second_run_witness :
    dictLookup
        (save_clippings_to_md_files [("T2", ["c"])] "out"
          (save_clippings_to_md_files [("T2", ["c"])] "out" []))
        (filePathFor "out" "T2") =
      some (contentFor ["c"] ++ contentFor ["c"]) :=
  writer_append_on_second_run [("T2", ["c"])] "out" [] "T2" ["c"]
    (by decide) (by decide) (by decide)

end Clippings
